import Mathlib

/-!
Verification of `ssim-grey` (`src/index.ts`), a SAT-based mean-SSIM
computation for single-channel greyscale images.

Modelling conventions:
* JavaScript `number` arithmetic is embedded as exact rational arithmetic
  (`ℚ`).  Rounding is out of scope: the claims under study are stated "up
  to floating-point rounding / exactly under exact arithmetic".
* IEEE non-finite results are embedded as `Option ℚ` with `none` standing
  for NaN: a division whose divisor is `0` yields `none`, and every
  arithmetic operation propagates `none` (as NaN propagates in JS).  In the
  reachable states of this program a zero divisor only ever occurs with a
  zero dividend (`0/0 = NaN`), so identifying all non-finite values with
  `none` is faithful.
* Pixel buffers are `List ℕ` (non-negative integer samples), indexed
  row-major exactly as the source indexes `img[y * width + x]`.
* JavaScript's `<<` operates on 32-bit signed integers with the shift
  count taken mod 32; `jsShl1` reproduces this for `1 << bitDepth`.
-/

/-- NaN-propagating addition on embedded JS numbers. -/
def oadd : Option ℚ → Option ℚ → Option ℚ
  | some a, some b => some (a + b)
  | _, _ => none

/-- NaN-propagating subtraction on embedded JS numbers. -/
def osub : Option ℚ → Option ℚ → Option ℚ
  | some a, some b => some (a - b)
  | _, _ => none

/-- NaN-propagating multiplication on embedded JS numbers. -/
def omul : Option ℚ → Option ℚ → Option ℚ
  | some a, some b => some (a * b)
  | _, _ => none

/-- NaN-propagating division on embedded JS numbers; a zero divisor gives
`none` (in this program a zero divisor only occurs with a zero dividend,
where JS produces NaN). -/
def odiv : Option ℚ → Option ℚ → Option ℚ
  | some a, some b => if b = 0 then none else some (a / b)
  | _, _ => none

instance : Add (Option ℚ) := ⟨oadd⟩
instance : Sub (Option ℚ) := ⟨osub⟩
instance : Mul (Option ℚ) := ⟨omul⟩
instance : Div (Option ℚ) := ⟨odiv⟩

@[simp] theorem oadd_some_some (a b : ℚ) : (some a + some b : Option ℚ) = some (a + b) := rfl

@[simp] theorem oadd_none_left (b : Option ℚ) : (none + b : Option ℚ) = none := rfl

@[simp] theorem oadd_none_right (a : Option ℚ) : (a + none : Option ℚ) = none := by
  cases a <;> rfl

@[simp] theorem osub_some_some (a b : ℚ) : (some a - some b : Option ℚ) = some (a - b) := rfl

@[simp] theorem osub_none_left (b : Option ℚ) : (none - b : Option ℚ) = none := rfl

@[simp] theorem osub_none_right (a : Option ℚ) : (a - none : Option ℚ) = none := by
  cases a <;> rfl

@[simp] theorem omul_some_some (a b : ℚ) : (some a * some b : Option ℚ) = some (a * b) := rfl

@[simp] theorem omul_none_left (b : Option ℚ) : (none * b : Option ℚ) = none := rfl

@[simp] theorem omul_none_right (a : Option ℚ) : (a * none : Option ℚ) = none := by
  cases a <;> rfl

@[simp] theorem odiv_some_some (a b : ℚ) :
    (some a / some b : Option ℚ) = if b = 0 then none else some (a / b) := rfl

@[simp] theorem odiv_none_left (b : Option ℚ) : (none / b : Option ℚ) = none := rfl

@[simp] theorem odiv_none_right (a : Option ℚ) : (a / none : Option ℚ) = none := by
  cases a <;> rfl

/-- Options record of `SsimGreyOptions` from the source, with its defaults. -/
structure SsimGreyOptions where
  windowSize : ℕ := 11
  k1 : ℚ := 1 / 100
  k2 : ℚ := 3 / 100
  bitDepth : ℕ := 8

/-- Reinterpret a natural number as a 32-bit two's-complement signed value
(the result type of every JS bitwise operator). -/
def toInt32 (n : ℕ) : ℤ :=
  if n % 2 ^ 32 < 2 ^ 31 then (n % 2 ^ 32 : ℕ) else (n % 2 ^ 32 : ℕ) - 2 ^ 32

/-- JavaScript `1 << b`: shift count is `b mod 32`, result is Int32. -/
def jsShl1 (b : ℕ) : ℤ := toInt32 (2 ^ (b % 32))

/-- `const L = (1 << bitDepth) - 1` from the source. -/
def Lval (bitDepth : ℕ) : ℚ := ((jsShl1 bitDepth : ℤ) : ℚ) - 1

/-- `const c1 = k1 * L * (k1 * L)` from the source. -/
def c1v (k1 : ℚ) (bitDepth : ℕ) : ℚ := k1 * Lval bitDepth * (k1 * Lval bitDepth)

/-- `const c2 = k2 * L * (k2 * L)` from the source. -/
def c2v (k2 : ℚ) (bitDepth : ℕ) : ℚ := k2 * Lval bitDepth * (k2 * Lval bitDepth)

/-- `const wsSq = ws * ws` from the source. -/
def wsSqQ (ws : ℕ) : ℚ := (ws : ℚ) * (ws : ℚ)

/-- Pixel read `img[y * width + x]` as a rational; claims always supply
buffers with `length = width * height`, so the default is never hit inside
the evaluated region. -/
def pxQ (img : List ℕ) (width x y : ℕ) : ℚ := (img.getD (y * width + x) 0 : ℕ)

/-- One row of a summed-area table: cell `x+1` of the row is
`f x + prev (x+1) + (this row at x) - prev x`, matching the source update
`sat[i] = v + sat[above] + sat[left] - sat[aboveLeft]` scanned left to
right with the zero left-border cell at `x = 0`. -/
def satRowAux (fy : ℕ → ℚ) (prev : ℕ → ℚ) : ℕ → ℚ
  | 0 => 0
  | x + 1 => fy x + prev (x + 1) + satRowAux fy prev x - prev x

/-- Rows of a summed-area table, built top to bottom exactly as the source
loop fills row `y+1` from row `y`; row `0` is the zero top border. -/
def satRows (f : ℕ → ℕ → ℚ) : ℕ → ℕ → ℚ
  | 0 => fun _ => 0
  | y + 1 => satRowAux (fun x => f x y) (satRows f y)

/-- `sat f x y` is the summed-area-table cell `SAT[y][x]` for per-pixel
quantity `f`. -/
def sat (f : ℕ → ℕ → ℚ) (x y : ℕ) : ℚ := satRows f y x

theorem satRows_zero_col (f : ℕ → ℕ → ℚ) (y : ℕ) : satRows f y 0 = 0 := by
  cases y <;> rfl

theorem satRowAux_eq (fy prev : ℕ → ℚ) (h0 : prev 0 = 0) (x : ℕ) :
    satRowAux fy prev x = (∑ i ∈ Finset.range x, fy i) + prev x := by
  induction x with
  | zero => simp [satRowAux, h0]
  | succ x ih =>
      rw [satRowAux, ih, Finset.sum_range_succ]
      ring

/-- Closed form of the SAT recurrence: `SAT[y][x]` is the sum of `f` over
the rectangle with corners `(0,0)` and `(x-1, y-1)`. -/
theorem sat_closed_form (f : ℕ → ℕ → ℚ) (x y : ℕ) :
    sat f x y = ∑ j ∈ Finset.range y, ∑ i ∈ Finset.range x, f i j := by
  induction y with
  | zero => simp [sat, satRows]
  | succ y ih =>
      rw [sat, satRows, satRowAux_eq _ _ (satRows_zero_col f y), Finset.sum_range_succ]
      rw [sat] at ih
      rw [ih]
      ring

/-- Four-corner SAT difference `br - bl - tr + tl` for the window with
top-left corner `(wx, wy)` and side `ws` (source lines 100-107). -/
def rectSum (f : ℕ → ℕ → ℚ) (ws wx wy : ℕ) : ℚ :=
  sat f (wx + ws) (wy + ws) - sat f wx (wy + ws) - sat f (wx + ws) wy + sat f wx wy

/-- The four-corner SAT difference equals the sum of `f` over the window's
pixels. -/
theorem rectSum_eq_window_sum (f : ℕ → ℕ → ℚ) (ws wx wy : ℕ) :
    rectSum f ws wx wy =
      ∑ j ∈ Finset.Ico wy (wy + ws), ∑ i ∈ Finset.Ico wx (wx + ws), f i j := by
  have hx : wx ≤ wx + ws := Nat.le_add_right _ _
  have hy : wy ≤ wy + ws := Nat.le_add_right _ _
  have hrow : ∀ j, ∑ i ∈ Finset.Ico wx (wx + ws), f i j =
      (∑ i ∈ Finset.range (wx + ws), f i j) - ∑ i ∈ Finset.range wx, f i j :=
    fun j => Finset.sum_Ico_eq_sub _ hx
  rw [Finset.sum_Ico_eq_sub _ hy]
  simp only [hrow, Finset.sum_sub_distrib]
  rw [rectSum, sat_closed_form, sat_closed_form, sat_closed_form, sat_closed_form]
  ring

/-- `sX`: SAT rectangle sum of image samples (table `satX`, or `satY` when
applied to the second image). -/
def sX (A : List ℕ) (width ws wx wy : ℕ) : ℚ :=
  rectSum (fun x y => pxQ A width x y) ws wx wy

/-- `sX2`: SAT rectangle sum of squared samples (table `satX2` / `satY2`). -/
def sX2 (A : List ℕ) (width ws wx wy : ℕ) : ℚ :=
  rectSum (fun x y => pxQ A width x y * pxQ A width x y) ws wx wy

/-- `sXY`: SAT rectangle sum of cross products (table `satXY`). -/
def sXY (A B : List ℕ) (width ws wx wy : ℕ) : ℚ :=
  rectSum (fun x y => pxQ A width x y * pxQ B width x y) ws wx wy

/-- `meanX = sX / wsSq` (and `meanY` when applied to the second image). -/
def wMeanX (A : List ℕ) (width ws wx wy : ℕ) : Option ℚ :=
  some (sX A width ws wx wy) / some (wsSqQ ws)

/-- `varX = (SAT2 rectangle sum) / wsSq - meanX * meanX` (and `varY`). -/
def wVarX (A : List ℕ) (width ws wx wy : ℕ) : Option ℚ :=
  some (sX2 A width ws wx wy) / some (wsSqQ ws) -
    wMeanX A width ws wx wy * wMeanX A width ws wx wy

/-- `covXY = (SATXY rectangle sum) / wsSq - meanX * meanY`. -/
def wCovXY (A B : List ℕ) (width ws wx wy : ℕ) : Option ℚ :=
  some (sXY A B width ws wx wy) / some (wsSqQ ws) -
    wMeanX A width ws wx wy * wMeanX B width ws wx wy

/-- `num = (2 * meanX * meanY + c1) * (2 * covXY + c2)`. -/
def wNum (A B : List ℕ) (width ws : ℕ) (c1 c2 : ℚ) (wx wy : ℕ) : Option ℚ :=
  (some 2 * wMeanX A width ws wx wy * wMeanX B width ws wx wy + some c1) *
    (some 2 * wCovXY A B width ws wx wy + some c2)

/-- `den = (meanX * meanX + meanY * meanY + c1) * (varX + varY + c2)`. -/
def wDen (A B : List ℕ) (width ws : ℕ) (c1 c2 : ℚ) (wx wy : ℕ) : Option ℚ :=
  (wMeanX A width ws wx wy * wMeanX A width ws wx wy +
      wMeanX B width ws wx wy * wMeanX B width ws wx wy + some c1) *
    (wVarX A width ws wx wy + wVarX B width ws wx wy + some c2)

/-- `val = num / den`, the SSIM value of one window. -/
def windowVal (A B : List ℕ) (width ws : ℕ) (c1 c2 : ℚ) (wx wy : ℕ) : Option ℚ :=
  wNum A B width ws c1 c2 wx wy / wDen A B width ws c1 c2 wx wy

/-- One step of the accumulation loop: `count++` then
`mssim = mssim + (val - mssim) / count`. -/
def welfordStep (s : Option ℚ × ℕ) (v : Option ℚ) : Option ℚ × ℕ :=
  (s.1 + (v - s.1) / some ((s.2 + 1 : ℕ) : ℚ), s.2 + 1)

/-- Window top-left corners in the source's traversal order: `wy` outer
over `[0, winH)`, `wx` inner over `[0, winW)` (row-major). -/
def windowCoords (winW winH : ℕ) : List (ℕ × ℕ) :=
  (List.range winH).flatMap fun wy => (List.range winW).map fun wx => (wx, wy)

/-- The per-window SSIM values in traversal order. -/
def windowVals (A B : List ℕ) (width ws : ℕ) (c1 c2 : ℚ) (winW winH : ℕ) :
    List (Option ℚ) :=
  (windowCoords winW winH).map fun p => windowVal A B width ws c1 c2 p.1 p.2

/-- The whole `ssimGrey` computation from the source: constants, the
degenerate-window guard, and the Welford fold over all windows.  `none`
models a NaN result. -/
def ssimGrey (img1 img2 : List ℕ) (width height : ℕ) (opts : SsimGreyOptions) :
    Option ℚ :=
  let ws := opts.windowSize
  let c1 := c1v opts.k1 opts.bitDepth
  let c2 := c2v opts.k2 opts.bitDepth
  let winW : ℤ := (width : ℤ) - (ws : ℤ) + 1
  let winH : ℤ := (height : ℤ) - (ws : ℤ) + 1
  if winW ≤ 0 ∨ winH ≤ 0 then some 1
  else
    ((windowVals img1 img2 width ws c1 c2 winW.toNat winH.toNat).foldl
      welfordStep (some 0, 0)).1

/-- The accumulation step on plain rationals (the NaN-free behaviour of
`welfordStep`). -/
def pureWelfordStep (s : ℚ × ℕ) (v : ℚ) : ℚ × ℕ :=
  (s.1 + (v - s.1) / ((s.2 + 1 : ℕ) : ℚ), s.2 + 1)

theorem welfordStep_some (m v : ℚ) (c : ℕ) :
    welfordStep (some m, c) (some v) = (some (m + (v - m) / ((c + 1 : ℕ) : ℚ)), c + 1) := by
  have hc : ((c + 1 : ℕ) : ℚ) ≠ 0 := by positivity
  show (some m + (some v - some m) / some ((c + 1 : ℕ) : ℚ), c + 1) = _
  rw [osub_some_some, odiv_some_some, if_neg hc, oadd_some_some]

theorem welfordStep_none_state (c : ℕ) (v : Option ℚ) :
    welfordStep (none, c) v = (none, c + 1) := by
  cases v <;> simp [welfordStep]

theorem welfordStep_none_val (m : Option ℚ) (c : ℕ) :
    welfordStep (m, c) none = (none, c + 1) := by
  simp [welfordStep]

theorem foldl_welford_none (l : List (Option ℚ)) :
    ∀ c : ℕ, (l.foldl welfordStep (none, c)).1 = none := by
  induction l with
  | nil => intro c; rfl
  | cons v t ih => intro c; rw [List.foldl_cons, welfordStep_none_state]; exact ih _

theorem foldl_welford_mem_none (l : List (Option ℚ)) :
    ∀ (m : Option ℚ) (c : ℕ), none ∈ l → (l.foldl welfordStep (m, c)).1 = none := by
  induction l with
  | nil => intro m c h; cases h
  | cons v t ih =>
      intro m c h
      rcases List.mem_cons.mp h with hv | ht
      · subst hv
        rw [List.foldl_cons, welfordStep_none_val]
        exact foldl_welford_none t _
      · rw [List.foldl_cons]
        rcases hs : welfordStep (m, c) v with ⟨m', c'⟩
        exact ih m' c' ht

theorem foldl_pureWelford_spec (l : List ℚ) :
    ∀ (c : ℕ) (m : ℚ),
      (l.foldl pureWelfordStep (m, c)).2 = c + l.length ∧
      (l.foldl pureWelfordStep (m, c)).1 * ((c : ℚ) + l.length) = m * c + l.sum := by
  induction l with
  | nil => intro c m; simp
  | cons v t ih =>
      intro c m
      have hc : ((c + 1 : ℕ) : ℚ) ≠ 0 := by positivity
      have hstep : pureWelfordStep (m, c) v = (m + (v - m) / ((c + 1 : ℕ) : ℚ), c + 1) := rfl
      rw [List.foldl_cons, hstep]
      rcases ih (c + 1) (m + (v - m) / ((c + 1 : ℕ) : ℚ)) with ⟨h2, h1⟩
      have hm : (m + (v - m) / ((c + 1 : ℕ) : ℚ)) * ((c + 1 : ℕ) : ℚ) = m * c + v := by
        field_simp
        ring
      refine ⟨by rw [h2, List.length_cons]; omega, ?_⟩
      rw [List.length_cons, List.sum_cons]
      push_cast at h1 hm ⊢
      linear_combination h1 + hm

theorem foldl_welford_map_some (l : List ℚ) :
    ∀ (c : ℕ) (m : ℚ),
      (l.map some).foldl welfordStep (some m, c) =
        (some (l.foldl pureWelfordStep (m, c)).1, (l.foldl pureWelfordStep (m, c)).2) := by
  induction l with
  | nil => intro c m; rfl
  | cons v t ih =>
      intro c m
      rw [List.map_cons, List.foldl_cons, List.foldl_cons, welfordStep_some,
        pureWelfordStep]
      exact ih (c + 1) _

/-- The incremental (Welford) mean over a non-empty list of plain values
equals the sum-then-divide mean. -/
theorem welford_eq_mean (l : List ℚ) (h : l ≠ []) :
    ((l.map some).foldl welfordStep (some 0, 0)).1 = some (l.sum / (l.length : ℚ)) := by
  have hlen : (l.length : ℚ) ≠ 0 := by
    have := List.length_pos.mpr h
    positivity
  have h1 := (foldl_pureWelford_spec l 0 0).2
  simp only [Nat.cast_zero, zero_add, zero_mul] at h1
  have hF : (l.foldl pureWelfordStep (0, 0)).1 = l.sum / (l.length : ℚ) := by
    rw [eq_div_iff hlen]
    exact h1
  rw [foldl_welford_map_some l 0 0]
  show some (l.foldl pureWelfordStep (0, 0)).1 = _
  rw [hF]

/-- Left fold of NaN-propagating addition, as the evaluator's reference
"sum then divide" mean uses it. -/
def osum (l : List (Option ℚ)) : Option ℚ := l.foldl oadd (some 0)

theorem foldl_oadd_none (l : List (Option ℚ)) : l.foldl oadd none = none := by
  induction l with
  | nil => rfl
  | cons v t ih => rw [List.foldl_cons]; cases v <;> exact ih

theorem foldl_oadd_map_some (l : List ℚ) :
    ∀ s : ℚ, (l.map some).foldl oadd (some s) = some (s + l.sum) := by
  induction l with
  | nil => intro s; simp [oadd]
  | cons v t ih =>
      intro s
      rw [List.map_cons, List.foldl_cons]
      show (t.map some).foldl oadd (some (s + v)) = _
      rw [ih (s + v)]
      simp
      ring

theorem osum_map_some (l : List ℚ) : osum (l.map some) = some l.sum := by
  rw [osum, foldl_oadd_map_some l 0, zero_add]

theorem foldl_oadd_mem_none (l : List (Option ℚ)) :
    ∀ s : Option ℚ, none ∈ l → l.foldl oadd s = none := by
  induction l with
  | nil => intro s h; cases h
  | cons v t ih =>
      intro s h
      rw [List.foldl_cons]
      rcases List.mem_cons.mp h with hv | ht
      · subst hv
        have hs : oadd s none = none := by cases s <;> rfl
        rw [hs]
        exact foldl_oadd_none t
      · exact ih _ ht

theorem osum_of_mem_none (l : List (Option ℚ)) (h : none ∈ l) : osum l = none :=
  foldl_oadd_mem_none l (some 0) h

theorem exists_map_some_of_not_mem_none (l : List (Option ℚ)) (h : none ∉ l) :
    ∃ l' : List ℚ, l = l'.map some := by
  induction l with
  | nil => exact ⟨[], rfl⟩
  | cons v t ih =>
      rcases ih (fun hm => h (List.mem_cons_of_mem _ hm)) with ⟨t', ht⟩
      cases v with
      | none => exact absurd (List.mem_cons_self _ _) h
      | some a => exact ⟨a :: t', by rw [ht]; rfl⟩

/-- The Welford fold over any non-empty list of (possibly NaN) per-window
values equals the sum of the list divided by its length, NaN propagating
identically on both sides. -/
theorem welford_foldl_eq_osum_div (lo : List (Option ℚ)) (h : lo ≠ []) :
    (lo.foldl welfordStep (some 0, 0)).1 = osum lo / some ((lo.length : ℕ) : ℚ) := by
  by_cases hn : none ∈ lo
  · rw [foldl_welford_mem_none lo _ _ hn, osum_of_mem_none lo hn]
    rfl
  · rcases exists_map_some_of_not_mem_none lo hn with ⟨l, rfl⟩
    have hne : l ≠ [] := by
      intro hl
      subst hl
      exact h rfl
    have hlen : (l.length : ℚ) ≠ 0 := by
      have := List.length_pos.mpr hne
      positivity
    rw [welford_eq_mean l hne, osum_map_some, List.length_map]
    simp [hlen]

/-- Reference definition following the spec's words: the mean computed
directly over the window's raw pixels. -/
def directMean (A : List ℕ) (width ws wx wy : ℕ) : ℚ :=
  (∑ j ∈ Finset.Ico wy (wy + ws), ∑ i ∈ Finset.Ico wx (wx + ws), pxQ A width i j) /
    wsSqQ ws

/-- Reference definition following the spec's words: the biased variance
computed directly over the window's raw pixels. -/
def directVar (A : List ℕ) (width ws wx wy : ℕ) : ℚ :=
  (∑ j ∈ Finset.Ico wy (wy + ws), ∑ i ∈ Finset.Ico wx (wx + ws),
      (pxQ A width i j - directMean A width ws wx wy) ^ 2) / wsSqQ ws

/-- Reference definition following the spec's words: the biased covariance
computed directly over the window's raw pixels. -/
def directCov (A B : List ℕ) (width ws wx wy : ℕ) : ℚ :=
  (∑ j ∈ Finset.Ico wy (wy + ws), ∑ i ∈ Finset.Ico wx (wx + ws),
      (pxQ A width i j - directMean A width ws wx wy) *
        (pxQ B width i j - directMean B width ws wx wy)) / wsSqQ ws

theorem wsSqQ_pos (ws : ℕ) (hws : 0 < ws) : 0 < wsSqQ ws := by
  rw [wsSqQ]
  have : (0 : ℚ) < ws := by exact_mod_cast hws
  positivity

theorem sum_centered_mul_eq {α : Type} (s : Finset α) (f g : α → ℚ) (n μf μg : ℚ)
    (hn : n ≠ 0) (hcard : (s.card : ℚ) = n)
    (hμf : μf = (∑ i ∈ s, f i) / n) (hμg : μg = (∑ i ∈ s, g i) / n) :
    (∑ i ∈ s, (f i - μf) * (g i - μg)) / n = (∑ i ∈ s, f i * g i) / n - μf * μg := by
  have hexp : ∀ i ∈ s, (f i - μf) * (g i - μg) =
      f i * g i - μg * f i - μf * g i + μf * μg := fun i _ => by ring
  rw [Finset.sum_congr rfl hexp]
  simp only [Finset.sum_add_distrib, Finset.sum_sub_distrib, ← Finset.mul_sum,
    Finset.sum_const, nsmul_eq_mul, hcard]
  subst hμf hμg
  field_simp
  ring

theorem window_card (ws wx wy : ℕ) :
    (((Finset.Ico wy (wy + ws)) ×ˢ (Finset.Ico wx (wx + ws))).card : ℚ) = wsSqQ ws := by
  rw [Finset.card_product, Nat.card_Ico, Nat.card_Ico, wsSqQ]
  have h1 : wy + ws - wy = ws := by omega
  have h2 : wx + ws - wx = ws := by omega
  rw [h1, h2]
  push_cast
  ring

theorem double_sum_eq_product_sum (h : ℕ → ℕ → ℚ) (ws wx wy : ℕ) :
    ∑ j ∈ Finset.Ico wy (wy + ws), ∑ i ∈ Finset.Ico wx (wx + ws), h i j =
      ∑ p ∈ (Finset.Ico wy (wy + ws)) ×ˢ (Finset.Ico wx (wx + ws)), h p.2 p.1 := by
  rw [Finset.sum_product]

/-- The spec-side covariance, re-expressed in the code's
`E[XY] - meanX * meanY` form. -/
theorem directCov_eq_sub (A B : List ℕ) (width ws wx wy : ℕ) (hws : 0 < ws) :
    directCov A B width ws wx wy =
      sXY A B width ws wx wy / wsSqQ ws -
        directMean A width ws wx wy * directMean B width ws wx wy := by
  have hn : wsSqQ ws ≠ 0 := ne_of_gt (wsSqQ_pos ws hws)
  have hμa : directMean A width ws wx wy =
      (∑ p ∈ (Finset.Ico wy (wy + ws)) ×ˢ (Finset.Ico wx (wx + ws)),
        pxQ A width p.2 p.1) / wsSqQ ws := by
    rw [directMean]
    congr 1
    exact double_sum_eq_product_sum (fun i j => pxQ A width i j) ws wx wy
  have hμb : directMean B width ws wx wy =
      (∑ p ∈ (Finset.Ico wy (wy + ws)) ×ˢ (Finset.Ico wx (wx + ws)),
        pxQ B width p.2 p.1) / wsSqQ ws := by
    rw [directMean]
    congr 1
    exact double_sum_eq_product_sum (fun i j => pxQ B width i j) ws wx wy
  have hL : directCov A B width ws wx wy =
      (∑ p ∈ (Finset.Ico wy (wy + ws)) ×ˢ (Finset.Ico wx (wx + ws)),
        (pxQ A width p.2 p.1 - directMean A width ws wx wy) *
          (pxQ B width p.2 p.1 - directMean B width ws wx wy)) / wsSqQ ws := by
    rw [directCov]
    congr 1
    exact double_sum_eq_product_sum
      (fun i j => (pxQ A width i j - directMean A width ws wx wy) *
        (pxQ B width i j - directMean B width ws wx wy)) ws wx wy
  have hR : sXY A B width ws wx wy =
      ∑ p ∈ (Finset.Ico wy (wy + ws)) ×ˢ (Finset.Ico wx (wx + ws)),
        pxQ A width p.2 p.1 * pxQ B width p.2 p.1 := by
    rw [sXY, rectSum_eq_window_sum]
    exact double_sum_eq_product_sum (fun i j => pxQ A width i j * pxQ B width i j) ws wx wy
  rw [hL, hR]
  exact sum_centered_mul_eq ((Finset.Ico wy (wy + ws)) ×ˢ (Finset.Ico wx (wx + ws)))
    (fun p => pxQ A width p.2 p.1) (fun p => pxQ B width p.2 p.1)
    (wsSqQ ws) (directMean A width ws wx wy) (directMean B width ws wx wy) hn
    (window_card ws wx wy) hμa hμb

theorem directVar_eq_directCov_self (A : List ℕ) (width ws wx wy : ℕ) :
    directVar A width ws wx wy = directCov A A width ws wx wy := by
  rw [directVar, directCov]
  congr 1
  refine Finset.sum_congr rfl fun j _ => Finset.sum_congr rfl fun i _ => by ring

/-- The spec-side variance, re-expressed in the code's
`E[X^2] - meanX^2` form. -/
theorem directVar_eq_sub (A : List ℕ) (width ws wx wy : ℕ) (hws : 0 < ws) :
    directVar A width ws wx wy =
      sX2 A width ws wx wy / wsSqQ ws -
        directMean A width ws wx wy * directMean A width ws wx wy := by
  rw [directVar_eq_directCov_self, directCov_eq_sub A A width ws wx wy hws]
  rfl

/-- The code's SAT-derived window mean agrees with the direct pixel mean. -/
theorem wMeanX_eq_direct (A : List ℕ) (width ws wx wy : ℕ) (hws : 0 < ws) :
    wMeanX A width ws wx wy = some (directMean A width ws wx wy) := by
  have hn : wsSqQ ws ≠ 0 := ne_of_gt (wsSqQ_pos ws hws)
  rw [wMeanX, odiv_some_some, if_neg hn, directMean, sX, rectSum_eq_window_sum]

/-- The code's SAT-derived window variance agrees with the direct pixel
variance. -/
theorem wVarX_eq_direct (A : List ℕ) (width ws wx wy : ℕ) (hws : 0 < ws) :
    wVarX A width ws wx wy = some (directVar A width ws wx wy) := by
  have hn : wsSqQ ws ≠ 0 := ne_of_gt (wsSqQ_pos ws hws)
  rw [wVarX, wMeanX_eq_direct A width ws wx wy hws, odiv_some_some, if_neg hn,
    omul_some_some, osub_some_some, directVar_eq_sub A width ws wx wy hws]

/-- The code's SAT-derived window covariance agrees with the direct pixel
covariance. -/
theorem wCovXY_eq_direct (A B : List ℕ) (width ws wx wy : ℕ) (hws : 0 < ws) :
    wCovXY A B width ws wx wy = some (directCov A B width ws wx wy) := by
  have hn : wsSqQ ws ≠ 0 := ne_of_gt (wsSqQ_pos ws hws)
  rw [wCovXY, wMeanX_eq_direct A width ws wx wy hws, wMeanX_eq_direct B width ws wx wy hws,
    odiv_some_some, if_neg hn, omul_some_some, osub_some_some,
    directCov_eq_sub A B width ws wx wy hws]

theorem pxQ_nonneg (A : List ℕ) (width x y : ℕ) : 0 ≤ pxQ A width x y := by
  rw [pxQ]
  exact_mod_cast Nat.zero_le _

theorem directMean_nonneg (A : List ℕ) (width ws wx wy : ℕ) :
    0 ≤ directMean A width ws wx wy := by
  rw [directMean]
  apply div_nonneg
  · exact Finset.sum_nonneg fun j _ => Finset.sum_nonneg fun i _ => pxQ_nonneg A width i j
  · rw [wsSqQ]; positivity

theorem directVar_nonneg (A : List ℕ) (width ws wx wy : ℕ) :
    0 ≤ directVar A width ws wx wy := by
  rw [directVar]
  apply div_nonneg
  · exact Finset.sum_nonneg fun j _ => Finset.sum_nonneg fun i _ => sq_nonneg _
  · rw [wsSqQ]; positivity

theorem directVar_prod_sum (A : List ℕ) (width ws wx wy : ℕ) :
    directVar A width ws wx wy =
      (∑ p ∈ (Finset.Ico wy (wy + ws)) ×ˢ (Finset.Ico wx (wx + ws)),
        (pxQ A width p.2 p.1 - directMean A width ws wx wy) ^ 2) / wsSqQ ws := by
  rw [directVar]
  congr 1
  exact double_sum_eq_product_sum
    (fun i j => (pxQ A width i j - directMean A width ws wx wy) ^ 2) ws wx wy

theorem directCov_prod_sum (A B : List ℕ) (width ws wx wy : ℕ) :
    directCov A B width ws wx wy =
      (∑ p ∈ (Finset.Ico wy (wy + ws)) ×ˢ (Finset.Ico wx (wx + ws)),
        (pxQ A width p.2 p.1 - directMean A width ws wx wy) *
          (pxQ B width p.2 p.1 - directMean B width ws wx wy)) / wsSqQ ws := by
  rw [directCov]
  congr 1
  exact double_sum_eq_product_sum
    (fun i j => (pxQ A width i j - directMean A width ws wx wy) *
      (pxQ B width i j - directMean B width ws wx wy)) ws wx wy

theorem var_add_var_sub_two_cov_nonneg (A B : List ℕ) (width ws wx wy : ℕ)
    (hws : 0 < ws) :
    0 ≤ directVar A width ws wx wy + directVar B width ws wx wy -
      2 * directCov A B width ws wx wy := by
  have hn := wsSqQ_pos ws hws
  rw [directVar_prod_sum A width ws wx wy, directVar_prod_sum B width ws wx wy,
    directCov_prod_sum A B width ws wx wy, div_add_div_same, ← mul_div_assoc,
    div_sub_div_same]
  apply div_nonneg _ (le_of_lt hn)
  have hcomb :
      (∑ p ∈ (Finset.Ico wy (wy + ws)) ×ˢ (Finset.Ico wx (wx + ws)),
        (pxQ A width p.2 p.1 - directMean A width ws wx wy) ^ 2) +
      (∑ p ∈ (Finset.Ico wy (wy + ws)) ×ˢ (Finset.Ico wx (wx + ws)),
        (pxQ B width p.2 p.1 - directMean B width ws wx wy) ^ 2) -
      2 * (∑ p ∈ (Finset.Ico wy (wy + ws)) ×ˢ (Finset.Ico wx (wx + ws)),
        (pxQ A width p.2 p.1 - directMean A width ws wx wy) *
          (pxQ B width p.2 p.1 - directMean B width ws wx wy)) =
      ∑ p ∈ (Finset.Ico wy (wy + ws)) ×ˢ (Finset.Ico wx (wx + ws)),
        ((pxQ A width p.2 p.1 - directMean A width ws wx wy) -
          (pxQ B width p.2 p.1 - directMean B width ws wx wy)) ^ 2 := by
    rw [Finset.mul_sum, ← Finset.sum_add_distrib, ← Finset.sum_sub_distrib]
    exact Finset.sum_congr rfl fun p _ => by ring
  rw [hcomb]
  exact Finset.sum_nonneg fun p _ => sq_nonneg _

theorem var_add_var_add_two_cov_nonneg (A B : List ℕ) (width ws wx wy : ℕ)
    (hws : 0 < ws) :
    0 ≤ directVar A width ws wx wy + directVar B width ws wx wy +
      2 * directCov A B width ws wx wy := by
  have hn := wsSqQ_pos ws hws
  rw [directVar_prod_sum A width ws wx wy, directVar_prod_sum B width ws wx wy,
    directCov_prod_sum A B width ws wx wy, div_add_div_same, ← mul_div_assoc,
    div_add_div_same]
  apply div_nonneg _ (le_of_lt hn)
  have hcomb :
      (∑ p ∈ (Finset.Ico wy (wy + ws)) ×ˢ (Finset.Ico wx (wx + ws)),
        (pxQ A width p.2 p.1 - directMean A width ws wx wy) ^ 2) +
      (∑ p ∈ (Finset.Ico wy (wy + ws)) ×ˢ (Finset.Ico wx (wx + ws)),
        (pxQ B width p.2 p.1 - directMean B width ws wx wy) ^ 2) +
      2 * (∑ p ∈ (Finset.Ico wy (wy + ws)) ×ˢ (Finset.Ico wx (wx + ws)),
        (pxQ A width p.2 p.1 - directMean A width ws wx wy) *
          (pxQ B width p.2 p.1 - directMean B width ws wx wy)) =
      ∑ p ∈ (Finset.Ico wy (wy + ws)) ×ˢ (Finset.Ico wx (wx + ws)),
        ((pxQ A width p.2 p.1 - directMean A width ws wx wy) +
          (pxQ B width p.2 p.1 - directMean B width ws wx wy)) ^ 2 := by
    rw [Finset.mul_sum, ← Finset.sum_add_distrib, ← Finset.sum_add_distrib]
    exact Finset.sum_congr rfl fun p _ => by ring
  rw [hcomb]
  exact Finset.sum_nonneg fun p _ => sq_nonneg _

/-- For any `bitDepth` that is not a multiple of 32, the computed dynamic
range `L` is nonzero (for `bitDepth mod 32 ∈ [1,30]` it is `2^k - 1 > 0`;
for `31` the 32-bit shift makes it `-2^31 - 1 < 0`). -/
theorem Lval_ne_zero (bd : ℕ) (h : bd % 32 ≠ 0) : Lval bd ≠ 0 := by
  have hlt : bd % 32 < 32 := Nat.mod_lt _ (by norm_num)
  rw [Lval, jsShl1]
  set k := bd % 32 with hk
  interval_cases k
  all_goals first
    | exact absurd rfl h
    | (rw [toInt32]; norm_num)

theorem c1v_pos (k1 : ℚ) (bd : ℕ) (hk : k1 ≠ 0) (hL : Lval bd ≠ 0) :
    0 < c1v k1 bd := by
  rw [c1v]
  exact mul_self_pos.mpr (mul_ne_zero hk hL)

theorem c2v_pos (k2 : ℚ) (bd : ℕ) (hk : k2 ≠ 0) (hL : Lval bd ≠ 0) :
    0 < c2v k2 bd := by
  rw [c2v]
  exact mul_self_pos.mpr (mul_ne_zero hk hL)

/-- `num` evaluated in terms of the direct window statistics. -/
theorem wNum_eq_direct (A B : List ℕ) (width ws : ℕ) (c1 c2 : ℚ) (wx wy : ℕ)
    (hws : 0 < ws) :
    wNum A B width ws c1 c2 wx wy =
      some ((2 * directMean A width ws wx wy * directMean B width ws wx wy + c1) *
        (2 * directCov A B width ws wx wy + c2)) := by
  rw [wNum, wMeanX_eq_direct A width ws wx wy hws, wMeanX_eq_direct B width ws wx wy hws,
    wCovXY_eq_direct A B width ws wx wy hws]
  simp only [omul_some_some, oadd_some_some]

/-- `den` evaluated in terms of the direct window statistics. -/
theorem wDen_eq_direct (A B : List ℕ) (width ws : ℕ) (c1 c2 : ℚ) (wx wy : ℕ)
    (hws : 0 < ws) :
    wDen A B width ws c1 c2 wx wy =
      some ((directMean A width ws wx wy * directMean A width ws wx wy +
          directMean B width ws wx wy * directMean B width ws wx wy + c1) *
        (directVar A width ws wx wy + directVar B width ws wx wy + c2)) := by
  rw [wDen, wMeanX_eq_direct A width ws wx wy hws, wMeanX_eq_direct B width ws wx wy hws,
    wVarX_eq_direct A width ws wx wy hws, wVarX_eq_direct B width ws wx wy hws]
  simp only [omul_some_some, oadd_some_some]

/-- With any positive stability constants the per-window denominator is a
strictly positive finite value. -/
theorem wDen_pos (A B : List ℕ) (width ws : ℕ) (c1 c2 : ℚ) (wx wy : ℕ)
    (hws : 0 < ws) (hc1 : 0 < c1) (hc2 : 0 < c2) :
    ∃ d : ℚ, wDen A B width ws c1 c2 wx wy = some d ∧ 0 < d := by
  refine ⟨_, wDen_eq_direct A B width ws c1 c2 wx wy hws, ?_⟩
  apply mul_pos
  · have h1 := mul_self_nonneg (directMean A width ws wx wy)
    have h2 := mul_self_nonneg (directMean B width ws wx wy)
    linarith
  · have h1 := directVar_nonneg A width ws wx wy
    have h2 := directVar_nonneg B width ws wx wy
    linarith

/-- `val = num / den` evaluated in terms of the direct window statistics,
whenever the stability constants are positive. -/
theorem windowVal_eq_direct (A B : List ℕ) (width ws : ℕ) (c1 c2 : ℚ) (wx wy : ℕ)
    (hws : 0 < ws) (hc1 : 0 < c1) (hc2 : 0 < c2) :
    windowVal A B width ws c1 c2 wx wy =
      some ((2 * directMean A width ws wx wy * directMean B width ws wx wy + c1) *
          (2 * directCov A B width ws wx wy + c2) /
        ((directMean A width ws wx wy * directMean A width ws wx wy +
            directMean B width ws wx wy * directMean B width ws wx wy + c1) *
          (directVar A width ws wx wy + directVar B width ws wx wy + c2))) := by
  rcases wDen_pos A B width ws c1 c2 wx wy hws hc1 hc2 with ⟨d, hd, hdpos⟩
  rw [windowVal, wNum_eq_direct A B width ws c1 c2 wx wy hws, hd, odiv_some_some,
    if_neg (ne_of_gt hdpos)]
  rw [wDen_eq_direct A B width ws c1 c2 wx wy hws] at hd
  have : d = (directMean A width ws wx wy * directMean A width ws wx wy +
      directMean B width ws wx wy * directMean B width ws wx wy + c1) *
      (directVar A width ws wx wy + directVar B width ws wx wy + c2) :=
    (Option.some_inj.mp hd).symm
  rw [this]

/-- Every window of the comparison of an image with itself evaluates to
exactly 1. -/
theorem windowVal_self (A : List ℕ) (width ws : ℕ) (c1 c2 : ℚ) (wx wy : ℕ)
    (hws : 0 < ws) (hc1 : 0 < c1) (hc2 : 0 < c2) :
    windowVal A A width ws c1 c2 wx wy = some 1 := by
  rw [windowVal_eq_direct A A width ws c1 c2 wx wy hws hc1 hc2]
  have hv := directVar_nonneg A width ws wx wy
  have hm := mul_self_nonneg (directMean A width ws wx wy)
  have hcov : directCov A A width ws wx wy = directVar A width ws wx wy :=
    (directVar_eq_directCov_self A width ws wx wy).symm
  rw [hcov]
  have hnum : (2 * directMean A width ws wx wy * directMean A width ws wx wy + c1) *
      (2 * directVar A width ws wx wy + c2) =
      (directMean A width ws wx wy * directMean A width ws wx wy +
        directMean A width ws wx wy * directMean A width ws wx wy + c1) *
      (directVar A width ws wx wy + directVar A width ws wx wy + c2) := by
    ring
  rw [hnum, div_self]
  apply ne_of_gt
  apply mul_pos <;> linarith

/-- Every window value is a finite rational in `[-1, 1]` whenever the
stability constants are positive. -/
theorem windowVal_bounds (A B : List ℕ) (width ws : ℕ) (c1 c2 : ℚ) (wx wy : ℕ)
    (hws : 0 < ws) (hc1 : 0 < c1) (hc2 : 0 < c2) :
    ∃ v : ℚ, windowVal A B width ws c1 c2 wx wy = some v ∧ -1 ≤ v ∧ v ≤ 1 := by
  refine ⟨_, windowVal_eq_direct A B width ws c1 c2 wx wy hws hc1 hc2, ?_, ?_⟩
  all_goals
    have hma := directMean_nonneg A width ws wx wy
    have hmb := directMean_nonneg B width ws wx wy
    have hva := directVar_nonneg A width ws wx wy
    have hvb := directVar_nonneg B width ws wx wy
    have hamgm : 2 * directMean A width ws wx wy * directMean B width ws wx wy ≤
        directMean A width ws wx wy * directMean A width ws wx wy +
          directMean B width ws wx wy * directMean B width ws wx wy := by
      nlinarith [sq_nonneg (directMean A width ws wx wy - directMean B width ws wx wy)]
    have hcov1 := var_add_var_sub_two_cov_nonneg A B width ws wx wy hws
    have hcov2 := var_add_var_add_two_cov_nonneg A B width ws wx wy hws
    have hP : (0 : ℚ) ≤ 2 * directMean A width ws wx wy * directMean B width ws wx wy + c1 := by
      nlinarith
    have hR : 2 * directMean A width ws wx wy * directMean B width ws wx wy + c1 ≤
        directMean A width ws wx wy * directMean A width ws wx wy +
          directMean B width ws wx wy * directMean B width ws wx wy + c1 := by
      linarith
    have hS : (0 : ℚ) < directVar A width ws wx wy + directVar B width ws wx wy + c2 := by
      linarith
    have hRpos : (0 : ℚ) < directMean A width ws wx wy * directMean A width ws wx wy +
        directMean B width ws wx wy * directMean B width ws wx wy + c1 := by
      nlinarith
    have hden : (0 : ℚ) < (directMean A width ws wx wy * directMean A width ws wx wy +
        directMean B width ws wx wy * directMean B width ws wx wy + c1) *
        (directVar A width ws wx wy + directVar B width ws wx wy + c2) :=
      mul_pos hRpos hS
  · rw [le_div_iff₀ hden]
    nlinarith
  · rw [div_le_one hden]
    nlinarith

theorem windowCoords_length (winW winH : ℕ) :
    (windowCoords winW winH).length = winH * winW := by
  rw [windowCoords, List.length_flatMap]
  simp [Function.comp_def, List.map_const', List.sum_replicate]

theorem windowVals_length (A B : List ℕ) (width ws : ℕ) (c1 c2 : ℚ) (winW winH : ℕ) :
    (windowVals A B width ws c1 c2 winW winH).length = winH * winW := by
  rw [windowVals, List.length_map, windowCoords_length]

theorem windowVals_ne_nil (A B : List ℕ) (width ws : ℕ) (c1 c2 : ℚ) (winW winH : ℕ)
    (hW : winW ≠ 0) (hH : winH ≠ 0) :
    windowVals A B width ws c1 c2 winW winH ≠ [] := by
  intro hnil
  have := windowVals_length A B width ws c1 c2 winW winH
  rw [hnil] at this
  simp only [List.length_nil] at this
  rcases Nat.mul_eq_zero.mp this.symm with h | h
  · exact hH h
  · exact hW h

theorem mem_windowVals (A B : List ℕ) (width ws : ℕ) (c1 c2 : ℚ) (winW winH : ℕ)
    (v : Option ℚ) (hv : v ∈ windowVals A B width ws c1 c2 winW winH) :
    ∃ wx wy : ℕ, v = windowVal A B width ws c1 c2 wx wy := by
  rw [windowVals] at hv
  rcases List.mem_map.mp hv with ⟨p, _, rfl⟩
  exact ⟨p.1, p.2, rfl⟩

theorem windowCoords_mem_zero (winW winH : ℕ) (hW : 0 < winW) (hH : 0 < winH) :
    ((0 : ℕ), (0 : ℕ)) ∈ windowCoords winW winH := by
  rw [windowCoords]
  apply List.mem_flatMap.mpr
  exact ⟨0, List.mem_range.mpr hH, List.mem_map.mpr ⟨0, List.mem_range.mpr hW, rfl⟩⟩

/-- With `windowSize = 0` the window sums are divided by `wsSq = 0`, so
every per-window value is NaN. -/
theorem windowVal_ws_zero (A B : List ℕ) (width : ℕ) (c1 c2 : ℚ) (wx wy : ℕ) :
    windowVal A B width 0 c1 c2 wx wy = none := by
  have hws : wsSqQ 0 = 0 := by rw [wsSqQ]; norm_num
  simp [windowVal, wNum, wDen, wCovXY, wVarX, wMeanX, hws]

theorem sat_nonneg (f : ℕ → ℕ → ℚ) (hf : ∀ i j, 0 ≤ f i j) (x y : ℕ) :
    0 ≤ sat f x y := by
  rw [sat_closed_form]
  exact Finset.sum_nonneg fun j _ => Finset.sum_nonneg fun i _ => hf i j

theorem sat_mono_right (f : ℕ → ℕ → ℚ) (hf : ∀ i j, 0 ≤ f i j) (x y : ℕ) :
    sat f x y ≤ sat f (x + 1) y := by
  rw [sat_closed_form, sat_closed_form]
  apply Finset.sum_le_sum
  intro j _
  rw [Finset.sum_range_succ]
  linarith [hf x j]

theorem sat_mono_down (f : ℕ → ℕ → ℚ) (hf : ∀ i j, 0 ≤ f i j) (x y : ℕ) :
    sat f x y ≤ sat f x (y + 1) := by
  rw [sat_closed_form, sat_closed_form, Finset.sum_range_succ]
  have : 0 ≤ ∑ i ∈ Finset.range x, f i y := Finset.sum_nonneg fun i _ => hf i y
  linarith

theorem list_sum_le_length (l : List ℚ) (h : ∀ x ∈ l, x ≤ 1) : l.sum ≤ (l.length : ℚ) := by
  induction l with
  | nil => simp
  | cons v t ih =>
      rw [List.sum_cons, List.length_cons]
      push_cast
      have h1 := h v (List.mem_cons_self v t)
      have h2 := ih fun x hx => h x (List.mem_cons_of_mem _ hx)
      linarith

theorem neg_length_le_list_sum (l : List ℚ) (h : ∀ x ∈ l, -1 ≤ x) :
    -(l.length : ℚ) ≤ l.sum := by
  induction l with
  | nil => simp
  | cons v t ih =>
      rw [List.sum_cons, List.length_cons]
      push_cast
      have h1 := h v (List.mem_cons_self v t)
      have h2 := ih fun x hx => h x (List.mem_cons_of_mem _ hx)
      linarith

theorem welford_const_one (l : List (Option ℚ)) (h : l ≠ [])
    (hall : ∀ v ∈ l, v = some 1) :
    (l.foldl welfordStep (some 0, 0)).1 = some 1 := by
  have hlen : (l.length : ℚ) ≠ 0 := by
    have := List.length_pos.mpr h
    positivity
  have hrep : l = List.replicate l.length (some 1) := List.eq_replicate_of_mem hall
  rw [welford_foldl_eq_osum_div l h]
  have hmap : List.replicate l.length (some (1 : ℚ)) =
      (List.replicate l.length (1 : ℚ)).map some := by
    rw [List.map_replicate]
  have hosum : osum l = some (l.length : ℚ) := by
    conv_lhs => rw [hrep, hmap]
    rw [osum_map_some, List.sum_replicate]
    norm_num
  rw [hosum, odiv_some_some, if_neg hlen, div_self hlen]

theorem sXY_comm (A B : List ℕ) (width ws wx wy : ℕ) :
    sXY A B width ws wx wy = sXY B A width ws wx wy := by
  rw [sXY, sXY]
  congr 1
  funext x y
  exact mul_comm _ _

theorem optionSsim_comm (a b va vb s : Option ℚ) (c1 c2 : ℚ) :
    (some 2 * a * b + some c1) * (some 2 * (s - a * b) + some c2) /
      ((a * a + b * b + some c1) * (va + vb + some c2)) =
    (some 2 * b * a + some c1) * (some 2 * (s - b * a) + some c2) /
      ((b * b + a * a + some c1) * (vb + va + some c2)) := by
  cases a <;> cases b <;> cases va <;> cases vb <;> cases s <;>
    simp only [omul_some_some, omul_none_left, omul_none_right, oadd_some_some,
      oadd_none_left, oadd_none_right, osub_some_some, osub_none_left, osub_none_right,
      odiv_some_some, odiv_none_left, odiv_none_right]
  all_goals ring_nf

/-- Swapping the two images leaves each per-window SSIM value unchanged. -/
theorem windowVal_comm (A B : List ℕ) (width ws : ℕ) (c1 c2 : ℚ) (wx wy : ℕ) :
    windowVal A B width ws c1 c2 wx wy = windowVal B A width ws c1 c2 wx wy := by
  rw [windowVal, windowVal, wNum, wNum, wDen, wDen, wCovXY, wCovXY, sXY_comm A B]
  exact optionSsim_comm (wMeanX A width ws wx wy) (wMeanX B width ws wx wy)
    (wVarX A width ws wx wy) (wVarX B width ws wx wy)
    (some (sXY B A width ws wx wy) / some (wsSqQ ws)) c1 c2

/-- C1: for every pair of images and every window, the per-window mean,
variance and covariance that the code derives from the four-corner SAT
differences (rectangle sum divided by `ws^2`, minus the product of means)
equal the mean, variance and covariance computed directly over the
window's raw pixels, exactly, under exact arithmetic. -/
theorem C1_window_stats_refine (A B : List ℕ) (width ws wx wy : ℕ) (hws : 0 < ws) :
    wMeanX A width ws wx wy = some (directMean A width ws wx wy) ∧
    wMeanX B width ws wx wy = some (directMean B width ws wx wy) ∧
    wVarX A width ws wx wy = some (directVar A width ws wx wy) ∧
    wVarX B width ws wx wy = some (directVar B width ws wx wy) ∧
    wCovXY A B width ws wx wy = some (directCov A B width ws wx wy) :=
  ⟨wMeanX_eq_direct A width ws wx wy hws, wMeanX_eq_direct B width ws wx wy hws,
   wVarX_eq_direct A width ws wx wy hws, wVarX_eq_direct B width ws wx wy hws,
   wCovXY_eq_direct A B width ws wx wy hws⟩

theorem C1_window_stats_refine_witness :
    0 < 2 ∧
    (wMeanX [1, 2, 3, 4] 2 2 0 0 = some (directMean [1, 2, 3, 4] 2 2 0 0) ∧
     wMeanX [4, 3, 2, 1] 2 2 0 0 = some (directMean [4, 3, 2, 1] 2 2 0 0) ∧
     wVarX [1, 2, 3, 4] 2 2 0 0 = some (directVar [1, 2, 3, 4] 2 2 0 0) ∧
     wVarX [4, 3, 2, 1] 2 2 0 0 = some (directVar [4, 3, 2, 1] 2 2 0 0) ∧
     wCovXY [1, 2, 3, 4] [4, 3, 2, 1] 2 2 0 0 =
       some (directCov [1, 2, 3, 4] [4, 3, 2, 1] 2 2 0 0)) :=
  ⟨by norm_num, C1_window_stats_refine [1, 2, 3, 4] [4, 3, 2, 1] 2 2 0 0 (by norm_num)⟩

/-- C4: whenever `winW = width - ws + 1 ≤ 0` or `winH = height - ws + 1 ≤ 0`
the function returns 1 immediately, regardless of pixel content. -/
theorem C4_degenerate_window (img1 img2 : List ℕ) (width height : ℕ)
    (opts : SsimGreyOptions)
    (h : (width : ℤ) - opts.windowSize + 1 ≤ 0 ∨
      (height : ℤ) - opts.windowSize + 1 ≤ 0) :
    ssimGrey img1 img2 width height opts = some 1 := by
  simp only [ssimGrey]
  rw [if_pos h]

theorem C4_degenerate_window_witness :
    (((5 : ℕ) : ℤ) - ((⟨11, 1 / 100, 3 / 100, 8⟩ : SsimGreyOptions).windowSize : ℤ) + 1 ≤ 0 ∨
      ((5 : ℕ) : ℤ) - ((⟨11, 1 / 100, 3 / 100, 8⟩ : SsimGreyOptions).windowSize : ℤ) + 1 ≤ 0) ∧
    ssimGrey (List.replicate 25 128) (List.replicate 25 128) 5 5
      ⟨11, 1 / 100, 3 / 100, 8⟩ = some 1 :=
  ⟨by decide,
   C4_degenerate_window (List.replicate 25 128) (List.replicate 25 128) 5 5
     ⟨11, 1 / 100, 3 / 100, 8⟩ (by decide)⟩

/-- C10: with `windowSize = 0` and positive dimensions the degenerate-window
guard does not fire (`winW = width + 1 > 0`), every window sum is divided
by `wsSq = 0`, and the function returns NaN (modelled as `none`). -/
theorem C10_zero_window_nan (img1 img2 : List ℕ) (width height : ℕ)
    (opts : SsimGreyOptions) (hws : opts.windowSize = 0)
    (hw : 0 < width) (hh : 0 < height) :
    (0 < (width : ℤ) - opts.windowSize + 1 ∧ 0 < (height : ℤ) - opts.windowSize + 1) ∧
      wsSqQ opts.windowSize = 0 ∧
      ssimGrey img1 img2 width height opts = none := by
  refine ⟨⟨by rw [hws]; omega, by rw [hws]; omega⟩, by rw [hws, wsSqQ]; norm_num, ?_⟩
  have hW : ¬((width : ℤ) - opts.windowSize + 1 ≤ 0 ∨
      (height : ℤ) - opts.windowSize + 1 ≤ 0) := by
    rw [hws]
    push_neg
    constructor <;> [omega; omega]
  simp only [ssimGrey]
  rw [if_neg hW, hws]
  apply foldl_welford_mem_none
  rw [windowVals]
  apply List.mem_map.mpr
  refine ⟨(0, 0), ?_, windowVal_ws_zero img1 img2 width _ _ 0 0⟩
  apply windowCoords_mem_zero <;> omega

theorem C10_zero_window_nan_witness :
    ((⟨0, 1 / 100, 3 / 100, 8⟩ : SsimGreyOptions).windowSize = 0 ∧ 0 < 1) ∧
      (0 < (1 : ℤ) - ((⟨0, 1 / 100, 3 / 100, 8⟩ : SsimGreyOptions).windowSize : ℤ) + 1 ∧
        0 < (1 : ℤ) - ((⟨0, 1 / 100, 3 / 100, 8⟩ : SsimGreyOptions).windowSize : ℤ) + 1) ∧
      wsSqQ (⟨0, 1 / 100, 3 / 100, 8⟩ : SsimGreyOptions).windowSize = 0 ∧
      ssimGrey [5] [7] 1 1 ⟨0, 1 / 100, 3 / 100, 8⟩ = none :=
  ⟨⟨rfl, by norm_num⟩,
   C10_zero_window_nan [5] [7] 1 1 ⟨0, 1 / 100, 3 / 100, 8⟩ rfl (by norm_num) (by norm_num)⟩

/-- C8 (amended): for `1 ≤ bitDepth ≤ 30` the dynamic range is
`L = 2^bitDepth - 1` and the stability constants are `c1 = (k1*L)^2`,
`c2 = (k2*L)^2`; for `bitDepth ≥ 31` the JavaScript 32-bit shift breaks
the `L` formula. -/
theorem C8_constants (k1 k2 : ℚ) (bd : ℕ) (h1 : 1 ≤ bd) (h2 : bd ≤ 30) :
    Lval bd = 2 ^ bd - 1 ∧ c1v k1 bd = (k1 * Lval bd) ^ 2 ∧
      c2v k2 bd = (k2 * Lval bd) ^ 2 := by
  refine ⟨?_, by rw [c1v]; ring, by rw [c2v]; ring⟩
  have hmod : bd % 32 = bd := Nat.mod_eq_of_lt (by omega)
  have hpow : (2 : ℕ) ^ bd < 2 ^ 31 := by
    calc (2 : ℕ) ^ bd ≤ 2 ^ 30 := Nat.pow_le_pow_right (by norm_num) h2
      _ < 2 ^ 31 := by norm_num
  have hpow32 : (2 : ℕ) ^ bd < 2 ^ 32 := lt_trans hpow (by norm_num)
  rw [Lval, jsShl1, hmod, toInt32, Nat.mod_eq_of_lt hpow32, if_pos hpow]
  push_cast
  ring

theorem C8_constants_witness :
    (1 ≤ 8 ∧ 8 ≤ 30) ∧
    (Lval 8 = 2 ^ 8 - 1 ∧ c1v (1 / 100) 8 = ((1 / 100 : ℚ) * Lval 8) ^ 2 ∧
      c2v (3 / 100) 8 = ((3 / 100 : ℚ) * Lval 8) ^ 2) :=
  ⟨by norm_num, C8_constants (1 / 100) (3 / 100) 8 (by norm_num) (by norm_num)⟩

/-- C8 counterexample: at `bitDepth = 32` (a positive integer) the code
computes `L = (1 <<< 32) - 1 = 0`, not `2^32 - 1`, because the JS shift
count is taken mod 32. -/
theorem C8_counterexample : Lval 32 = 0 ∧ (0 : ℚ) ≠ 2 ^ 32 - 1 := by
  constructor
  · rw [Lval, jsShl1, toInt32]
    norm_num
  · norm_num

/-- C6 (amended): with `k1, k2 > 0` and a bit depth whose value mod 32 is
nonzero (so `c1, c2 > 0`), the per-window denominator
`den = (meanX^2 + meanY^2 + c1) * (varX + varY + c2)` is strictly positive
in every window, so `val = num / den` never divides by zero. -/
theorem C6_den_positive (A B : List ℕ) (width ws : ℕ) (k1 k2 : ℚ) (bd : ℕ)
    (wx wy : ℕ) (hws : 0 < ws) (hk1 : 0 < k1) (hk2 : 0 < k2) (hbd : bd % 32 ≠ 0) :
    ∃ d : ℚ, wDen A B width ws (c1v k1 bd) (c2v k2 bd) wx wy = some d ∧ 0 < d :=
  wDen_pos A B width ws _ _ wx wy hws
    (c1v_pos k1 bd (ne_of_gt hk1) (Lval_ne_zero bd hbd))
    (c2v_pos k2 bd (ne_of_gt hk2) (Lval_ne_zero bd hbd))

theorem C6_den_positive_witness :
    (0 < 1 ∧ (0 : ℚ) < 1 / 100 ∧ (0 : ℚ) < 3 / 100 ∧ 8 % 32 ≠ 0) ∧
    ∃ d : ℚ, wDen [3] [9] 1 1 (c1v (1 / 100) 8) (c2v (3 / 100) 8) 0 0 = some d ∧ 0 < d :=
  ⟨⟨by norm_num, by norm_num, by norm_num, by norm_num⟩,
   C6_den_positive [3] [9] 1 1 (1 / 100) (3 / 100) 8 0 0
     (by norm_num) (by norm_num) (by norm_num) (by norm_num)⟩

/-- C6 counterexample: at `bitDepth = 32` (where `k1, k2 > 0` but the JS
shift makes `L = 0`, hence `c1 = c2 = 0`) the all-zero window has
denominator exactly 0, refuting positivity for every positive `bitDepth`. -/
theorem C6_counterexample :
    (0 : ℚ) < 1 / 100 ∧ (0 : ℚ) < 3 / 100 ∧
      wDen [0] [0] 1 1 (c1v (1 / 100) 32) (c2v (3 / 100) 32) 0 0 = some 0 := by
  refine ⟨by norm_num, by norm_num, ?_⟩
  simp only [wDen, wVarX, wMeanX, sX, sX2, rectSum, sat, satRows, satRowAux, pxQ,
    wsSqQ, c1v, c2v, Lval, jsShl1, toInt32, List.getD, List.get?]
  norm_num

/-- Concrete evaluation: at `bitDepth = 32` the constants collapse to
`c1 = c2 = 0` and the all-zero 1-pixel comparison evaluates `0 / 0`,
i.e. NaN (JS returns NaN; the model returns `none`). -/
theorem ssimGrey_allzero_bd32_eval :
    ssimGrey [0] [0] 1 1 ⟨1, 1 / 100, 3 / 100, 32⟩ = none := by
  simp only [ssimGrey, windowVals, windowCoords, windowVal, wNum, wDen, wMeanX, wVarX,
    wCovXY, sX, sX2, sXY, rectSum, sat, satRows, satRowAux, pxQ, wsSqQ, c1v, c2v, Lval,
    jsShl1, toInt32, welfordStep, List.range, List.range.loop, List.flatMap, List.map,
    List.foldl, List.getD, List.get?]
  norm_num

/-- C2 (amended): for any image buffer with `length = width * height`,
positive dimensions, and options with positive `windowSize`, `k1`, `k2`
and a `bitDepth` whose value mod 32 is nonzero, comparing the image with
itself returns exactly 1. -/
theorem C2_identity (I : List ℕ) (width height : ℕ) (opts : SsimGreyOptions)
    (hlen : I.length = width * height) (hw : 0 < width) (hh : 0 < height)
    (hws : 0 < opts.windowSize) (hk1 : 0 < opts.k1) (hk2 : 0 < opts.k2)
    (hbd32 : opts.bitDepth % 32 ≠ 0) :
    ssimGrey I I width height opts = some 1 := by
  have hc1 : 0 < c1v opts.k1 opts.bitDepth :=
    c1v_pos _ _ (ne_of_gt hk1) (Lval_ne_zero _ hbd32)
  have hc2 : 0 < c2v opts.k2 opts.bitDepth :=
    c2v_pos _ _ (ne_of_gt hk2) (Lval_ne_zero _ hbd32)
  by_cases hdeg : (width : ℤ) - opts.windowSize + 1 ≤ 0 ∨
      (height : ℤ) - opts.windowSize + 1 ≤ 0
  · simp only [ssimGrey]
    rw [if_pos hdeg]
  · simp only [ssimGrey]
    rw [if_neg hdeg]
    push_neg at hdeg
    apply welford_const_one
    · apply windowVals_ne_nil
      · omega
      · omega
    · intro v hv
      rcases mem_windowVals _ _ _ _ _ _ _ _ v hv with ⟨wx, wy, rfl⟩
      exact windowVal_self I width opts.windowSize _ _ wx wy hws hc1 hc2

theorem C2_identity_witness :
    ([3].length = 1 * 1 ∧ 0 < 1 ∧ (0 : ℚ) < 1 / 100 ∧ (0 : ℚ) < 3 / 100 ∧ 8 % 32 ≠ 0) ∧
      ssimGrey [3] [3] 1 1 ⟨1, 1 / 100, 3 / 100, 8⟩ = some 1 :=
  ⟨⟨rfl, by norm_num, by norm_num, by norm_num, by norm_num⟩,
   C2_identity [3] 1 1 ⟨1, 1 / 100, 3 / 100, 8⟩ rfl (by norm_num) (by norm_num)
     (by norm_num) (by norm_num) (by norm_num) (by norm_num)⟩

/-- C2 counterexample: with the positive options
`windowSize = 1, k1 = 0.01, k2 = 0.03, bitDepth = 32` and the valid
one-pixel buffer `[0]`, the result is NaN (`none`), not 1: the claim
fails for `bitDepth` a multiple of 32. -/
theorem C2_identity_counterexample :
    ssimGrey [0] [0] 1 1 ⟨1, 1 / 100, 3 / 100, 32⟩ = none ∧
      (none : Option ℚ) ≠ some 1 :=
  ⟨ssimGrey_allzero_bd32_eval, by simp⟩

/-- C3: swapping the two image arguments never changes the result. -/
theorem C3_symmetry (A B : List ℕ) (width height : ℕ) (opts : SsimGreyOptions)
    (hA : A.length = width * height) (hB : B.length = width * height) :
    ssimGrey A B width height opts = ssimGrey B A width height opts := by
  by_cases h : (width : ℤ) - opts.windowSize + 1 ≤ 0 ∨
      (height : ℤ) - opts.windowSize + 1 ≤ 0
  · simp only [ssimGrey]
    rw [if_pos h, if_pos h]
  · simp only [ssimGrey]
    rw [if_neg h, if_neg h]
    have hvals : windowVals A B width opts.windowSize (c1v opts.k1 opts.bitDepth)
        (c2v opts.k2 opts.bitDepth) ((width : ℤ) - opts.windowSize + 1).toNat
        ((height : ℤ) - opts.windowSize + 1).toNat =
        windowVals B A width opts.windowSize (c1v opts.k1 opts.bitDepth)
        (c2v opts.k2 opts.bitDepth) ((width : ℤ) - opts.windowSize + 1).toNat
        ((height : ℤ) - opts.windowSize + 1).toNat := by
      rw [windowVals, windowVals]
      exact List.map_congr_left fun p _ =>
        windowVal_comm A B width opts.windowSize _ _ p.1 p.2
    rw [hvals]

theorem C3_symmetry_witness :
    ([1, 2].length = 2 * 1 ∧ [9, 4].length = 2 * 1) ∧
      ssimGrey [1, 2] [9, 4] 2 1 ⟨1, 1 / 100, 3 / 100, 8⟩ =
        ssimGrey [9, 4] [1, 2] 2 1 ⟨1, 1 / 100, 3 / 100, 8⟩ :=
  ⟨⟨rfl, rfl⟩, C3_symmetry [1, 2] [9, 4] 2 1 ⟨1, 1 / 100, 3 / 100, 8⟩ rfl rfl⟩

/-- C5: in the non-degenerate case the result is the Welford fold over the
row-major list of per-window values, and it equals the arithmetic
(sum-then-divide) mean of exactly those values — exactly, under exact
arithmetic. -/
theorem C5_running_mean_is_arithmetic_mean (A B : List ℕ) (width height : ℕ)
    (opts : SsimGreyOptions)
    (hW : 0 < (width : ℤ) - opts.windowSize + 1)
    (hH : 0 < (height : ℤ) - opts.windowSize + 1) :
    ssimGrey A B width height opts =
      osum (windowVals A B width opts.windowSize (c1v opts.k1 opts.bitDepth)
          (c2v opts.k2 opts.bitDepth) ((width : ℤ) - opts.windowSize + 1).toNat
          ((height : ℤ) - opts.windowSize + 1).toNat) /
        some (((windowVals A B width opts.windowSize (c1v opts.k1 opts.bitDepth)
          (c2v opts.k2 opts.bitDepth) ((width : ℤ) - opts.windowSize + 1).toNat
          ((height : ℤ) - opts.windowSize + 1).toNat).length : ℚ)) := by
  have hcond : ¬((width : ℤ) - opts.windowSize + 1 ≤ 0 ∨
      (height : ℤ) - opts.windowSize + 1 ≤ 0) := by
    push_neg
    exact ⟨hW, hH⟩
  simp only [ssimGrey]
  rw [if_neg hcond]
  exact welford_foldl_eq_osum_div _
    (windowVals_ne_nil _ _ _ _ _ _ _ _ (by omega) (by omega))

theorem C5_running_mean_is_arithmetic_mean_witness :
    (0 < (1 : ℤ) - (1 : ℕ) + 1) ∧
      ssimGrey [2] [5] 1 1 ⟨1, 1 / 100, 3 / 100, 8⟩ =
        osum (windowVals [2] [5] 1 1 (c1v (1 / 100) 8) (c2v (3 / 100) 8)
            ((1 : ℤ) - (1 : ℕ) + 1).toNat ((1 : ℤ) - (1 : ℕ) + 1).toNat) /
          some (((windowVals [2] [5] 1 1 (c1v (1 / 100) 8) (c2v (3 / 100) 8)
            ((1 : ℤ) - (1 : ℕ) + 1).toNat ((1 : ℤ) - (1 : ℕ) + 1).toNat).length : ℚ)) :=
  ⟨by norm_num,
   C5_running_mean_is_arithmetic_mean [2] [5] 1 1 ⟨1, 1 / 100, 3 / 100, 8⟩
     (by norm_num) (by norm_num)⟩

/-- C9 (amended): for valid same-dimension buffers and options with
positive `windowSize`, `k1`, `k2` and a `bitDepth` whose value mod 32 is
nonzero, the returned score is a finite rational in `[-1, 1]`. -/
theorem C9_score_in_range (A B : List ℕ) (width height : ℕ) (opts : SsimGreyOptions)
    (hA : A.length = width * height) (hB : B.length = width * height)
    (hws : 0 < opts.windowSize) (hk1 : 0 < opts.k1) (hk2 : 0 < opts.k2)
    (hbd32 : opts.bitDepth % 32 ≠ 0) :
    ∃ q : ℚ, ssimGrey A B width height opts = some q ∧ -1 ≤ q ∧ q ≤ 1 := by
  have hc1 : 0 < c1v opts.k1 opts.bitDepth :=
    c1v_pos _ _ (ne_of_gt hk1) (Lval_ne_zero _ hbd32)
  have hc2 : 0 < c2v opts.k2 opts.bitDepth :=
    c2v_pos _ _ (ne_of_gt hk2) (Lval_ne_zero _ hbd32)
  by_cases hdeg : (width : ℤ) - opts.windowSize + 1 ≤ 0 ∨
      (height : ℤ) - opts.windowSize + 1 ≤ 0
  · refine ⟨1, ?_, by norm_num, le_refl 1⟩
    simp only [ssimGrey]
    rw [if_pos hdeg]
  · push_neg at hdeg
    have hfold : ssimGrey A B width height opts =
        ((windowVals A B width opts.windowSize (c1v opts.k1 opts.bitDepth)
          (c2v opts.k2 opts.bitDepth) ((width : ℤ) - opts.windowSize + 1).toNat
          ((height : ℤ) - opts.windowSize + 1).toNat).foldl welfordStep (some 0, 0)).1 := by
      simp only [ssimGrey]
      rw [if_neg (by push_neg; exact hdeg)]
    have hne : windowVals A B width opts.windowSize (c1v opts.k1 opts.bitDepth)
        (c2v opts.k2 opts.bitDepth) ((width : ℤ) - opts.windowSize + 1).toNat
        ((height : ℤ) - opts.windowSize + 1).toNat ≠ [] :=
      windowVals_ne_nil _ _ _ _ _ _ _ _ (by omega) (by omega)
    have hnone : none ∉ windowVals A B width opts.windowSize (c1v opts.k1 opts.bitDepth)
        (c2v opts.k2 opts.bitDepth) ((width : ℤ) - opts.windowSize + 1).toNat
        ((height : ℤ) - opts.windowSize + 1).toNat := by
      intro hmem
      rcases mem_windowVals _ _ _ _ _ _ _ _ none hmem with ⟨wx, wy, heq⟩
      rcases windowVal_bounds A B width opts.windowSize _ _ wx wy hws hc1 hc2 with
        ⟨v, hv, _, _⟩
      rw [hv] at heq
      exact Option.noConfusion heq
    rcases exists_map_some_of_not_mem_none _ hnone with ⟨l', hl'⟩
    have hne' : l' ≠ [] := by
      intro h0
      rw [h0] at hl'
      exact hne (by rw [hl']; rfl)
    have hlenpos : (0 : ℚ) < (l'.length : ℚ) := by
      have := List.length_pos.mpr hne'
      positivity
    have hbounds : ∀ x ∈ l', -1 ≤ x ∧ x ≤ 1 := by
      intro x hx
      have hmem : some x ∈ windowVals A B width opts.windowSize
          (c1v opts.k1 opts.bitDepth) (c2v opts.k2 opts.bitDepth)
          ((width : ℤ) - opts.windowSize + 1).toNat
          ((height : ℤ) - opts.windowSize + 1).toNat := by
        rw [hl']
        exact List.mem_map_of_mem some hx
      rcases mem_windowVals _ _ _ _ _ _ _ _ (some x) hmem with ⟨wx, wy, heq⟩
      rcases windowVal_bounds A B width opts.windowSize _ _ wx wy hws hc1 hc2 with
        ⟨v, hv, hv1, hv2⟩
      rw [hv] at heq
      rcases Option.some_inj.mp heq with rfl
      exact ⟨hv1, hv2⟩
    refine ⟨l'.sum / (l'.length : ℚ), ?_, ?_, ?_⟩
    · rw [hfold, hl']
      exact welford_eq_mean l' hne'
    · rw [le_div_iff₀ hlenpos]
      have := neg_length_le_list_sum l' fun x hx => (hbounds x hx).1
      linarith
    · rw [div_le_one hlenpos]
      exact list_sum_le_length l' fun x hx => (hbounds x hx).2

theorem C9_score_in_range_witness :
    ([7].length = 1 * 1 ∧ 0 < 1 ∧ (0 : ℚ) < 1 / 100 ∧ (0 : ℚ) < 3 / 100 ∧ 8 % 32 ≠ 0) ∧
      ∃ q : ℚ, ssimGrey [7] [9] 1 1 ⟨1, 1 / 100, 3 / 100, 8⟩ = some q ∧ -1 ≤ q ∧ q ≤ 1 :=
  ⟨⟨rfl, by norm_num, by norm_num, by norm_num, by norm_num⟩,
   C9_score_in_range [7] [9] 1 1 ⟨1, 1 / 100, 3 / 100, 8⟩ rfl rfl
     (by norm_num) (by norm_num) (by norm_num) (by norm_num)⟩

/-- C9 counterexample: with the positive options
`windowSize = 1, k1 = 0.01, k2 = 0.03, bitDepth = 32`, samples in range,
the result is NaN (`none`), which is not a score in `[-1, 1]`. -/
theorem C9_counterexample :
    ¬∃ q : ℚ, ssimGrey [0] [0] 1 1 ⟨1, 1 / 100, 3 / 100, 32⟩ = some q ∧
      -1 ≤ q ∧ q ≤ 1 := by
  rintro ⟨q, hq, -, -⟩
  rw [ssimGrey_allzero_bd32_eval] at hq
  exact Option.noConfusion hq

/-- C7: every cell of each of the five SATs is a well-defined finite
rational, non-negative, and monotonically non-decreasing in both `x` and
`y`. -/
theorem C7_sat_tables_monotone (img1 img2 : List ℕ) (width x y : ℕ) :
    (0 ≤ sat (fun i j => pxQ img1 width i j) x y ∧
      sat (fun i j => pxQ img1 width i j) x y ≤
        sat (fun i j => pxQ img1 width i j) (x + 1) y ∧
      sat (fun i j => pxQ img1 width i j) x y ≤
        sat (fun i j => pxQ img1 width i j) x (y + 1)) ∧
    (0 ≤ sat (fun i j => pxQ img2 width i j) x y ∧
      sat (fun i j => pxQ img2 width i j) x y ≤
        sat (fun i j => pxQ img2 width i j) (x + 1) y ∧
      sat (fun i j => pxQ img2 width i j) x y ≤
        sat (fun i j => pxQ img2 width i j) x (y + 1)) ∧
    (0 ≤ sat (fun i j => pxQ img1 width i j * pxQ img1 width i j) x y ∧
      sat (fun i j => pxQ img1 width i j * pxQ img1 width i j) x y ≤
        sat (fun i j => pxQ img1 width i j * pxQ img1 width i j) (x + 1) y ∧
      sat (fun i j => pxQ img1 width i j * pxQ img1 width i j) x y ≤
        sat (fun i j => pxQ img1 width i j * pxQ img1 width i j) x (y + 1)) ∧
    (0 ≤ sat (fun i j => pxQ img2 width i j * pxQ img2 width i j) x y ∧
      sat (fun i j => pxQ img2 width i j * pxQ img2 width i j) x y ≤
        sat (fun i j => pxQ img2 width i j * pxQ img2 width i j) (x + 1) y ∧
      sat (fun i j => pxQ img2 width i j * pxQ img2 width i j) x y ≤
        sat (fun i j => pxQ img2 width i j * pxQ img2 width i j) x (y + 1)) ∧
    (0 ≤ sat (fun i j => pxQ img1 width i j * pxQ img2 width i j) x y ∧
      sat (fun i j => pxQ img1 width i j * pxQ img2 width i j) x y ≤
        sat (fun i j => pxQ img1 width i j * pxQ img2 width i j) (x + 1) y ∧
      sat (fun i j => pxQ img1 width i j * pxQ img2 width i j) x y ≤
        sat (fun i j => pxQ img1 width i j * pxQ img2 width i j) x (y + 1)) := by
  have h1 : ∀ i j, 0 ≤ pxQ img1 width i j := fun i j => pxQ_nonneg img1 width i j
  have h2 : ∀ i j, 0 ≤ pxQ img2 width i j := fun i j => pxQ_nonneg img2 width i j
  have h11 : ∀ i j, 0 ≤ pxQ img1 width i j * pxQ img1 width i j :=
    fun i j => mul_nonneg (h1 i j) (h1 i j)
  have h22 : ∀ i j, 0 ≤ pxQ img2 width i j * pxQ img2 width i j :=
    fun i j => mul_nonneg (h2 i j) (h2 i j)
  have h12 : ∀ i j, 0 ≤ pxQ img1 width i j * pxQ img2 width i j :=
    fun i j => mul_nonneg (h1 i j) (h2 i j)
  exact ⟨⟨sat_nonneg _ h1 x y, sat_mono_right _ h1 x y, sat_mono_down _ h1 x y⟩,
    ⟨sat_nonneg _ h2 x y, sat_mono_right _ h2 x y, sat_mono_down _ h2 x y⟩,
    ⟨sat_nonneg _ h11 x y, sat_mono_right _ h11 x y, sat_mono_down _ h11 x y⟩,
    ⟨sat_nonneg _ h22 x y, sat_mono_right _ h22 x y, sat_mono_down _ h22 x y⟩,
    ⟨sat_nonneg _ h12 x y, sat_mono_right _ h12 x y, sat_mono_down _ h12 x y⟩⟩
